import Mathlib

/-!
# Verification of the spectra-db ingestion pipeline

Shallow embedding of the ingestion core of the `spectra-db` repository:
the NDJSON append-dedupe writer, stable-ID construction, the reference-code
splitter, the fixed-width table slicer, the caching fetcher, the checkpoint
loaders and the adaptive range-partitioning bulk-ingest loop.

Python strings manipulated character-by-character are modelled as `List Char`
(`PyStr`); strings only compared or concatenated are modelled as `String`.
Python `float` values that the code merely renders with `str(...)` and never
computes with are modelled by their rendered strings; wavelength arithmetic
in the partitioner is modelled over `ℚ`.  SHA-256 digests are kept as an
explicit function parameter: every property proved here holds for an
arbitrary digest function, hence in particular for SHA-256.
-/

namespace SpectraDB

/-! ## Python string primitives

`PyStr` models a Python `str` as its character sequence.  `pyStrip` models
`str.strip()`, `pyLower` models `str.lower()` (on the ASCII data these cells
contain), and `pySplit` models `str.split(sep)` for a one-character
separator. -/

abbrev PyStr := List Char

/-- Model of Python `str.strip()`: drop leading and trailing whitespace. -/
def pyStrip (s : PyStr) : PyStr :=
  ((s.dropWhile Char.isWhitespace).reverse.dropWhile Char.isWhitespace).reverse

/-- Model of Python `str.lower()` on ASCII content. -/
def pyLower (s : PyStr) : PyStr :=
  s.map Char.toLower

/-- Helper for `pySplit`: accumulate the current field (reversed) while
scanning. -/
def pySplitAux (sep : Char) : PyStr → PyStr → List PyStr
  | [], acc => [acc.reverse]
  | c :: cs, acc =>
    if c = sep then acc.reverse :: pySplitAux sep cs []
    else pySplitAux sep cs (c :: acc)

/-- Model of Python `str.split(sep)` for a single-character separator. -/
def pySplit (sep : Char) (s : PyStr) : List PyStr :=
  pySplitAux sep s []

/-! ## Reference-code splitting (tools/scrapers/nist_asd/fetch_lines.py)

`split_ref_codes` splits a possibly multi-valued citation cell.  The source
splits with `re.split(r"\s*,\s*", s)` and then strips every part; splitting
on the bare comma followed by the same strip yields the same parts, because
the whitespace the regex consumes around each comma is exactly the leading
and trailing whitespace `strip` removes from the adjacent parts.
`dict.fromkeys` (first occurrence wins, order preserved) is modelled by
`dedupFirst`. -/

/-- Keep the first occurrence of every element, dropping later duplicates;
`seen` holds the elements already emitted. -/
def dedupFirstAux (seen : List PyStr) : List PyStr → List PyStr
  | [] => []
  | x :: xs =>
    if x ∈ seen then dedupFirstAux seen xs
    else x :: dedupFirstAux (x :: seen) xs

/-- Model of `list(dict.fromkeys(parts))`: stable first-occurrence dedupe. -/
def dedupFirst (l : List PyStr) : List PyStr :=
  dedupFirstAux [] l

/-- Model of `split_ref_codes` (fetch_lines.py lines 79-86).  `none` models a
`None` cell; a non-`None` cell arrives as the rendered string `str(cell)`. -/
def split_ref_codes (cell : Option PyStr) : List PyStr :=
  match cell with
  | none => []
  | some c =>
    let s := pyStrip c
    if s = [] ∨ pyLower s = ("nan".toList) then []
    else dedupFirst (((pySplit ',' s).map pyStrip).filter (fun p => p ≠ []))

/-- Elements emitted by `dedupFirstAux` are fresh relative to `seen` and the
output has no duplicates. -/
theorem dedupFirstAux_nodup (l : List PyStr) :
    ∀ seen, (dedupFirstAux seen l).Nodup ∧
      ∀ x ∈ dedupFirstAux seen l, x ∉ seen := by
  induction l with
  | nil => intro seen; simp [dedupFirstAux]
  | cons y ys ih =>
    intro seen
    by_cases hy : y ∈ seen
    · simpa [dedupFirstAux, hy] using ih seen
    · have h := ih (y :: seen)
      refine ⟨?_, ?_⟩
      · simp only [dedupFirstAux, if_neg hy, List.nodup_cons]
        exact ⟨fun hx => (h.2 y hx) (List.mem_cons_self y seen), h.1⟩
      · intro x hx
        simp only [dedupFirstAux, if_neg hy, List.mem_cons] at hx
        rcases hx with rfl | hx
        · exact hy
        · intro hxs
          exact (h.2 x hx) (List.mem_cons_of_mem y hxs)

/-- Every element of `dedupFirstAux seen l` occurs in `l`. -/
theorem dedupFirstAux_subset (l : List PyStr) :
    ∀ seen, ∀ x ∈ dedupFirstAux seen l, x ∈ l := by
  induction l with
  | nil => intro seen x hx; simp [dedupFirstAux] at hx
  | cons y ys ih =>
    intro seen x hx
    by_cases hy : y ∈ seen
    · simp only [dedupFirstAux, if_pos hy] at hx
      exact List.mem_cons_of_mem y (ih seen x hx)
    · simp only [dedupFirstAux, if_neg hy, List.mem_cons] at hx
      rcases hx with rfl | hx
      · exact List.mem_cons_self x ys
      · exact List.mem_cons_of_mem y (ih (y :: seen) x hx)

/-- C10: `split_ref_codes` splits comma-separated codes, trims each, drops
empty fragments, removes duplicates keeping first-seen order, and maps empty
or placeholder (`nan`) cells to the empty list; in particular
`split_ref_codes("L18349, L18361c138")` is `["L18349", "L18361c138"]` in that
order. -/
theorem split_ref_codes_spec :
    split_ref_codes (some "L18349, L18361c138".toList) =
        ["L18349".toList, "L18361c138".toList] ∧
    split_ref_codes none = [] ∧
    split_ref_codes (some "".toList) = [] ∧
    split_ref_codes (some "   ".toList) = [] ∧
    split_ref_codes (some "NaN".toList) = [] ∧
    split_ref_codes (some " a ,a, b ,a".toList) = ["a".toList, "b".toList] ∧
    (∀ cell, (split_ref_codes cell).Nodup) ∧
    (∀ cell x, x ∈ split_ref_codes cell → x ≠ []) := by
  refine ⟨by decide, by decide, by decide, by decide, by decide, by decide, ?_, ?_⟩
  · intro cell
    cases cell with
    | none => simp [split_ref_codes]
    | some c =>
      simp only [split_ref_codes]
      split
      · exact List.nodup_nil
      · exact (dedupFirstAux_nodup _ _).1
  · intro cell x hx
    cases cell with
    | none => simp [split_ref_codes] at hx
    | some c =>
      simp only [split_ref_codes] at hx
      split at hx
      · simp at hx
      · have hmem := dedupFirstAux_subset _ _ x hx
        have hf := List.of_mem_filter hmem
        simpa using hf

/-- Witness for `split_ref_codes_spec` at a concrete repeated-code cell. -/
theorem split_ref_codes_spec_witness :
    "a".toList ∈ split_ref_codes (some " a ,a".toList) ∧
      "a".toList ≠ ([] : PyStr) :=
  ⟨by decide, split_ref_codes_spec.2.2.2.2.2.2.2 (some " a ,a".toList)
    "a".toList (by decide)⟩

/-! ## Append-dedupe NDJSON writer (src/spectra_db/scrapers/common/ndjson.py)

A destination NDJSON file is modelled as the list of JSON objects on its
well-formed lines (blank and unparseable lines contribute nothing to the
seen-ID scan in the source and are therefore not represented).  A JSON
object is an association list from field names to rendered values: the
source coerces every id with `str(...)`, so values are modelled as the
resulting strings. -/

/-- A JSON object on one NDJSON line: field name to rendered value. -/
abbrev NdRec := List (String × String)

/-- Model of `obj.get(field)`. -/
def recGet (r : NdRec) (field : String) : Option String :=
  r.lookup field

/-- The seen-ID scan of the existing file (ndjson.py lines 16-29): collect
`str(rid)` for every line whose `id_field` is present. -/
def seenIds (file : List NdRec) (idField : String) : List String :=
  file.filterMap (fun r => recGet r idField)

/-- The append loop of `append_ndjson_dedupe` (ndjson.py lines 31-42):
returns the records actually appended and the written count, threading the
`seen` set. -/
def appendLoop (idField : String) : List String → List NdRec → List NdRec × Nat
  | _, [] => ([], 0)
  | seen, r :: rs =>
    match recGet r idField with
    | none => appendLoop idField seen rs
    | some rid =>
      if rid ∈ seen then appendLoop idField seen rs
      else
        let rest := appendLoop idField (rid :: seen) rs
        (r :: rest.1, rest.2 + 1)

/-- Model of `append_ndjson_dedupe(path, records, id_field)`: the resulting
file contents and the returned count. -/
def append_ndjson_dedupe (file : List NdRec) (records : List NdRec)
    (idField : String) : List NdRec × Nat :=
  let appended := appendLoop idField (seenIds file idField) records
  (file ++ appended.1, appended.2)

/-- Number of records in `file` whose `idField` renders to `i`. -/
def countId (file : List NdRec) (idField : String) (i : String) : Nat :=
  (file.filter (fun r => recGet r idField = some i)).length

theorem countId_append (a b : List NdRec) (idField i : String) :
    countId (a ++ b) idField i = countId a idField i + countId b idField i := by
  simp [countId, List.filter_append]

theorem mem_seenIds_iff (file : List NdRec) (idField i : String) :
    i ∈ seenIds file idField ↔ ∃ r ∈ file, recGet r idField = some i := by
  simp [seenIds, List.mem_filterMap]

theorem countId_eq_zero_of_not_mem_seenIds (file : List NdRec)
    (idField i : String) (h : i ∉ seenIds file idField) :
    countId file idField i = 0 := by
  rw [countId, List.length_eq_zero, List.filter_eq_nil_iff]
  intro r hr
  simp only [decide_eq_true_eq]
  intro hid
  exact h ((mem_seenIds_iff file idField i).2 ⟨r, hr, hid⟩)

/-- Structure of the append loop: the count is the number of appended
records, and every appended record comes from the input and has a present
id not already seen when it was written. -/
theorem appendLoop_shape (idField : String) (records : List NdRec) :
    ∀ seen, (appendLoop idField seen records).2
        = (appendLoop idField seen records).1.length ∧
      ∀ r ∈ (appendLoop idField seen records).1,
        r ∈ records ∧ recGet r idField ≠ none := by
  induction records with
  | nil => intro seen; simp [appendLoop]
  | cons r rs ih =>
    intro seen
    simp only [appendLoop]
    cases hid : recGet r idField with
    | none =>
      refine ⟨(ih seen).1, fun r' hr' => ?_⟩
      exact ⟨List.mem_cons_of_mem r ((ih seen).2 r' hr').1,
        ((ih seen).2 r' hr').2⟩
    | some rid =>
      by_cases hseen : rid ∈ seen
      · simp only [if_pos hseen]
        refine ⟨(ih seen).1, fun r' hr' => ?_⟩
        exact ⟨List.mem_cons_of_mem r ((ih seen).2 r' hr').1,
          ((ih seen).2 r' hr').2⟩
      · simp only [if_neg hseen, List.mem_cons, List.length_cons]
        refine ⟨by rw [(ih (rid :: seen)).1], fun r' hr' => ?_⟩
        rcases hr' with rfl | hr'
        · exact ⟨Or.inl rfl, by simp [hid]⟩
        · exact ⟨Or.inr ((ih (rid :: seen)).2 r' hr').1,
            ((ih (rid :: seen)).2 r' hr').2⟩

/-- If every input id is already seen, the loop appends nothing. -/
theorem appendLoop_all_seen (idField : String) (records : List NdRec) :
    ∀ seen,
      (∀ r ∈ records, ∀ rid, recGet r idField = some rid → rid ∈ seen) →
      appendLoop idField seen records = ([], 0) := by
  induction records with
  | nil => intro seen _; rfl
  | cons r rs ih =>
    intro seen h
    simp only [appendLoop]
    cases hid : recGet r idField with
    | none => exact ih seen (fun r' hr' => h r' (List.mem_cons_of_mem r hr'))
    | some rid =>
      have : rid ∈ seen := h r (List.mem_cons_self r rs) rid hid
      simp only [if_pos this]
      exact ih seen (fun r' hr' => h r' (List.mem_cons_of_mem r hr'))

/-- Every input id either was seen initially or labels an appended record. -/
theorem appendLoop_covers (idField : String) (records : List NdRec) :
    ∀ seen, ∀ r ∈ records, ∀ rid, recGet r idField = some rid →
      rid ∈ seen ∨ rid ∈ seenIds (appendLoop idField seen records).1 idField := by
  induction records with
  | nil => intro seen r hr; simp at hr
  | cons r rs ih =>
    intro seen r' hr' rid hid
    simp only [appendLoop]
    rcases List.mem_cons.1 hr' with rfl | hmem
    · rw [hid]
      by_cases hseen : rid ∈ seen
      · exact Or.inl hseen
      · simp only [if_neg hseen]
        refine Or.inr ?_
        refine (mem_seenIds_iff _ _ _).2 ⟨r', List.mem_cons_self _ _, hid⟩
    · cases hid' : recGet r idField with
      | none => exact ih seen r' hmem rid hid
      | some rid' =>
        by_cases hseen : rid' ∈ seen
        · simp only [if_pos hseen]
          exact ih seen r' hmem rid hid
        · simp only [if_neg hseen]
          rcases ih (rid' :: seen) r' hmem rid hid with hl | hr
          · rcases List.mem_cons.1 hl with rfl | hl
            · refine Or.inr ?_
              exact (mem_seenIds_iff _ _ _).2
                ⟨r, List.mem_cons_self _ _, hid'⟩
            · exact Or.inl hl
          · refine Or.inr ?_
            rcases (mem_seenIds_iff _ _ _).1 hr with ⟨q, hq, hqid⟩
            exact (mem_seenIds_iff _ _ _).2
              ⟨q, List.mem_cons_of_mem r hq, hqid⟩

/-- An id that was seen initially never labels an appended record. -/
theorem appendLoop_countId_of_seen (idField i : String)
    (records : List NdRec) :
    ∀ seen, i ∈ seen →
      countId (appendLoop idField seen records).1 idField i = 0 := by
  induction records with
  | nil => intro seen _; simp [appendLoop, countId]
  | cons r rs ih =>
    intro seen hseen
    simp only [appendLoop]
    cases hid : recGet r idField with
    | none => exact ih seen hseen
    | some rid =>
      by_cases hmem : rid ∈ seen
      · simp only [if_pos hmem]; exact ih seen hseen
      · have hne : rid ≠ i := fun h => hmem (h ▸ hseen)
        simp only [if_neg hmem]
        have : countId (r :: (appendLoop idField (rid :: seen) rs).1)
            idField i
            = countId (appendLoop idField (rid :: seen) rs).1 idField i := by
          simp [countId, List.filter_cons, hid, hne]
        rw [this]
        exact ih (rid :: seen) (List.mem_cons_of_mem rid hseen)

/-- An unseen id carried by some input record labels exactly one appended
record. -/
theorem appendLoop_countId_of_new (idField i : String)
    (records : List NdRec) :
    ∀ seen, i ∉ seen →
      (∃ r ∈ records, recGet r idField = some i) →
      countId (appendLoop idField seen records).1 idField i = 1 := by
  induction records with
  | nil => intro seen _ h; simp at h
  | cons r rs ih =>
    intro seen hnot ⟨r', hr', hid'⟩
    simp only [appendLoop]
    cases hid : recGet r idField with
    | none =>
      rcases List.mem_cons.1 hr' with rfl | hmem
      · rw [hid'] at hid; cases hid
      · exact ih seen hnot ⟨r', hmem, hid'⟩
    | some rid =>
      by_cases hmem : rid ∈ seen
      · simp only [if_pos hmem]
        have hne : rid ≠ i := fun h => hnot (h ▸ hmem)
        rcases List.mem_cons.1 hr' with rfl | hm
        · rw [hid'] at hid
          cases hid
          exact absurd rfl hne
        · exact ih seen hnot ⟨r', hm, hid'⟩
      · simp only [if_neg hmem]
        by_cases heq : rid = i
        · subst heq
          have : countId (r :: (appendLoop idField (rid :: seen) rs).1)
              idField rid
              = countId (appendLoop idField (rid :: seen) rs).1 idField rid
                + 1 := by
            simp [countId, List.filter_cons, hid]
          rw [this, appendLoop_countId_of_seen idField rid rs (rid :: seen)
            (List.mem_cons_self rid seen)]
        · have hcons : countId (r :: (appendLoop idField (rid :: seen) rs).1)
              idField i
              = countId (appendLoop idField (rid :: seen) rs).1 idField i := by
            simp [countId, List.filter_cons, hid, heq]
          rw [hcons]
          have hnot' : i ∉ rid :: seen := by
            intro h
            rcases List.mem_cons.1 h with h | h
            · exact heq h.symm
            · exact hnot h
          rcases List.mem_cons.1 hr' with rfl | hm
          · rw [hid'] at hid; cases hid; exact absurd rfl heq
          · exact ih (rid :: seen) hnot' ⟨r', hm, hid'⟩

/-- C1 (amended): `append_ndjson_dedupe` returns exactly the number of newly
appended records, appends only input records with a present id, is a no-op
returning 0 when repeated with the same input, and leaves exactly one record
per input id provided the id was not already duplicated in the destination
file. -/
theorem append_ndjson_dedupe_idempotent :
    ∀ (file records : List NdRec) (idField : String) (out : List NdRec)
      (n : Nat),
      append_ndjson_dedupe file records idField = (out, n) →
      n + file.length = out.length ∧
      (∀ r ∈ out, r ∈ file ∨ (r ∈ records ∧ recGet r idField ≠ none)) ∧
      append_ndjson_dedupe out records idField = (out, 0) ∧
      ∀ i, (∃ r ∈ records, recGet r idField = some i) →
        countId file idField i ≤ 1 → countId out idField i = 1 := by
  intro file records idField out n h
  have hshape := appendLoop_shape idField records (seenIds file idField)
  have hout : out = file ++ (appendLoop idField (seenIds file idField)
      records).1 := by
    have := congrArg Prod.fst h
    simpa [append_ndjson_dedupe] using this.symm
  have hn : n = (appendLoop idField (seenIds file idField) records).2 := by
    have := congrArg Prod.snd h
    simpa [append_ndjson_dedupe] using this.symm
  refine ⟨?_, ?_, ?_, ?_⟩
  · rw [hout, hn, hshape.1, List.length_append]
    omega
  · intro r hr
    rw [hout] at hr
    rcases List.mem_append.1 hr with hr | hr
    · exact Or.inl hr
    · exact Or.inr (hshape.2 r hr)
  · have hcov : ∀ r ∈ records, ∀ rid, recGet r idField = some rid →
        rid ∈ seenIds out idField := by
      intro r hr rid hid
      rcases appendLoop_covers idField records (seenIds file idField)
          r hr rid hid with hl | hl
      · rcases (mem_seenIds_iff _ _ _).1 hl with ⟨q, hq, hqid⟩
        have hq' : q ∈ out := by
          rw [hout]; exact List.mem_append.2 (Or.inl hq)
        exact (mem_seenIds_iff _ _ _).2 ⟨q, hq', hqid⟩
      · rcases (mem_seenIds_iff _ _ _).1 hl with ⟨q, hq, hqid⟩
        have hq' : q ∈ out := by
          rw [hout]; exact List.mem_append.2 (Or.inr hq)
        exact (mem_seenIds_iff _ _ _).2 ⟨q, hq', hqid⟩
    have hempty := appendLoop_all_seen idField records (seenIds out idField)
      hcov
    simp [append_ndjson_dedupe, hempty]
  · intro i ⟨r, hr, hid⟩ hle
    rw [hout, countId_append]
    by_cases hseen : i ∈ seenIds file idField
    · have h1 : 1 ≤ countId file idField i := by
        rcases (mem_seenIds_iff _ _ _).1 hseen with ⟨q, hq, hqid⟩
        have : q ∈ file.filter (fun r => recGet r idField = some i) :=
          List.mem_filter.2 ⟨hq, by simp [hqid]⟩
        have := List.length_pos.2 (List.ne_nil_of_mem this)
        simpa [countId] using this
      have hfile : countId file idField i = 1 := le_antisymm hle h1
      rw [hfile, appendLoop_countId_of_seen idField i records _ hseen]
    · rw [countId_eq_zero_of_not_mem_seenIds file idField i hseen,
        appendLoop_countId_of_new idField i records _ hseen ⟨r, hr, hid⟩]

/-- Witness for `append_ndjson_dedupe_idempotent`: one record with id `"1"`
written to an empty file appears exactly once and a second identical call
returns 0. -/
theorem append_ndjson_dedupe_idempotent_witness :
    append_ndjson_dedupe [[("id", "1")]] [[("id", "1")]] "id"
        = ([[("id", "1")]], 0) ∧
      countId [[("id", "1")]] "id" "1" = 1 :=
  ⟨(append_ndjson_dedupe_idempotent [] [[("id", "1")]] "id"
      [[("id", "1")]] 1 (by decide)).2.2.1,
    (append_ndjson_dedupe_idempotent [] [[("id", "1")]] "id"
      [[("id", "1")]] 1 (by decide)).2.2.2 "1"
      ⟨[("id", "1")], by decide, by decide⟩ (by decide)⟩

/-- C1 as stated is false: two distinct input records sharing one id cannot
both end up in the file — after two identical calls the second record with a
present id has zero copies, not one. -/
theorem append_ndjson_dedupe_claim_counterexample :
    recGet [("id", "1"), ("a", "2")] "id" ≠ none ∧
      ¬((append_ndjson_dedupe
            (append_ndjson_dedupe []
              [[("id", "1"), ("a", "1")], [("id", "1"), ("a", "2")]]
              "id").1
            [[("id", "1"), ("a", "1")], [("id", "1"), ("a", "2")]]
            "id").1.count [("id", "1"), ("a", "2")] = 1) := by
  decide

/-! ## Fixed-width table slicing (src/spectra_db/scrapers/nist_asd/parse_lines.py)

`split_fixed_width` models `_split_fixed_width`: a row is sliced at the
template line's `|` positions, after right-padding the row with spaces when
it is shorter than the last pipe position.  `dataRows` models the data-row
loop of `parse_lines_response` (lines 207-220) and `build_headers` models
`_build_headers` up to the passes that matter for cell counts: the renaming
passes of the source (structural `Conf/Term/J` overrides, keyword cleanup
and uncertainty adjacency, lines 107-168) assign `names[i] = ...` in place
and never change the length of `names`, so they are not reproduced here —
the claims settled below concern only the number of cells per row. -/

/-- Model of Python `line[a:b]` slicing. -/
def pySlice (s : PyStr) (a b : Nat) : PyStr :=
  (s.take b).drop a

/-- Positions of the `|` characters of the template line
(`_pipe_positions`). -/
def pipe_positions (line : PyStr) : List Nat :=
  (line.enum.filter (fun p => p.2 = '|')).map Prod.fst

/-- Model of `_split_fixed_width` (parse_lines.py lines 33-49). -/
def split_fixed_width (line : PyStr) (pipePos : List Nat) : List PyStr :=
  match pipePos with
  | [] => [pyStrip line]
  | p :: ps =>
    let needLen := (p :: ps).getLast (List.cons_ne_nil p ps) + 1
    let line' := if line.length < needLen
      then line ++ List.replicate (needLen - line.length) ' ' else line
    let starts := 0 :: (p :: ps).map (· + 1)
    let ends := (p :: ps) ++ [line'.length]
    (starts.zip ends).map (fun se => pyStrip (pySlice line' se.1 se.2))

/-- Model of `_is_separator`: a long run of `-` with only `-|+ ` characters. -/
def is_separator (line : PyStr) : Bool :=
  let s := (line.reverse.dropWhile (fun c => c = '\n')).reverse
  let t := pyStrip s
  !t.isEmpty && decide (10 < t.count '-') &&
    t.all (fun c => c == '-' || c == '|' || c == '+' || c == ' ')

/-- Pad a short cell list with empty cells, or truncate a long one, to
exactly `ncols` entries (parse_lines_response lines 214-217). -/
def padTrunc (cells : List PyStr) (ncols : Nat) : List PyStr :=
  if cells.length < ncols
  then cells ++ List.replicate (ncols - cells.length) []
  else cells.take ncols

/-- The data-row loop of `parse_lines_response` (lines 207-220): skip
separator lines and lines without a pipe, slice the rest, pad or truncate to
`ncols` cells, and drop all-blank rows. -/
def dataRows (dataLines : List PyStr) (pipePos : List Nat) (ncols : Nat) :
    List (List PyStr) :=
  dataLines.filterMap (fun ln =>
    if is_separator ln then none
    else if '|' ∉ ln then none
    else
      let cells := padTrunc (split_fixed_width ln pipePos) ncols
      if cells.all (fun c => pyStrip c = []) then none else some cells)

theorem padTrunc_length (cells : List PyStr) (ncols : Nat) :
    (padTrunc cells ncols).length = ncols := by
  unfold padTrunc
  split
  · simp only [List.length_append, List.length_replicate]
    omega
  · simp only [List.length_take]
    omega

/-- Model of `_normalize_header_cell`: `re.sub(r"\s+", " ", s.strip())`,
realised by joining the whitespace-separated words with single spaces. -/
def pyWordsAux : PyStr → PyStr → List PyStr
  | [], acc => if acc = [] then [] else [acc.reverse]
  | c :: cs, acc =>
    if c.isWhitespace then
      if acc = [] then pyWordsAux cs [] else acc.reverse :: pyWordsAux cs []
    else pyWordsAux cs (c :: acc)

/-- Collapse whitespace runs of the stripped cell into single spaces. -/
def normalize_header_cell (s : PyStr) : PyStr :=
  List.intercalate [' '] (pyWordsAux s [])

/-- Model of `_dedupe_headers`: suffix repeated names with an occurrence
counter, substituting `col_<i>` for empty names. -/
def dedupeHeadersAux (seen : List (PyStr × Nat)) (i : Nat) :
    List PyStr → List PyStr
  | [] => []
  | h :: hs =>
    let base := if h = [] then "col_".toList ++ Nat.toDigits 10 i else h
    match seen.lookup base with
    | some n =>
      (base ++ "__".toList ++ Nat.toDigits 10 (n + 1)) ::
        dedupeHeadersAux ((base, n + 1) :: seen) (i + 1) hs
    | none => base :: dedupeHeadersAux ((base, 1) :: seen) (i + 1) hs

/-- Deduplicate header names (`_dedupe_headers`). -/
def dedupe_headers (headers : List PyStr) : List PyStr :=
  dedupeHeadersAux [] 0 headers

/-- Column count chosen by `_build_headers`: the maximum cell count over
the sliced header rows (`ncols = max(len(r) for r in hdr_rows)`). -/
def ncolsOf (headerLines : List PyStr) (pipePos : List Nat) : Nat :=
  ((headerLines.map (fun ln => split_fixed_width ln pipePos)).map
    List.length).foldr max 0

/-- The merged, defaulted header names of `_build_headers` before dedupe. -/
def headerNames (headerLines : List PyStr) (pipePos : List Nat) :
    List PyStr :=
  let ncols := ncolsOf headerLines pipePos
  let hdrRowsP := (headerLines.map (fun ln => split_fixed_width ln pipePos)).map
    (fun r => r ++ List.replicate (ncols - r.length) [])
  let merged := (List.range ncols).map (fun c =>
    normalize_header_cell (List.intercalate [' ']
      ((hdrRowsP.map (fun row => normalize_header_cell (row.getD c []))).filter
        (fun piece => piece ≠ []))))
  merged.enum.map (fun q =>
    if q.2 = [] then "col_".toList ++ Nat.toDigits 10 q.1 else q.2)

/-- Model of `_build_headers` restricted to the length-relevant passes:
column-wise merge of the header band, `col_<i>` defaults, and dedupe. -/
def build_headers (headerLines : List PyStr) (pipePos : List Nat) :
    List PyStr :=
  match headerLines with
  | [] => []
  | _ :: _ => dedupe_headers (headerNames headerLines pipePos)

theorem split_fixed_width_length (line : PyStr) (pipePos : List Nat) :
    (split_fixed_width line pipePos).length = pipePos.length + 1 := by
  cases pipePos with
  | nil => simp [split_fixed_width]
  | cons p ps =>
    simp only [split_fixed_width, List.length_map, List.length_zip,
      List.length_cons, List.length_map, List.length_append,
      List.length_singleton]
    omega

theorem dedupeHeadersAux_length (headers : List PyStr) :
    ∀ seen i, (dedupeHeadersAux seen i headers).length = headers.length := by
  induction headers with
  | nil => intro seen i; rfl
  | cons h hs ih =>
    intro seen i
    simp only [dedupeHeadersAux]
    cases (seen.lookup (if h = [] then "col_".toList ++ Nat.toDigits 10 i else h)) with
    | none => simp [ih]
    | some n => simp [ih]

theorem foldr_max_le (k : Nat) (l : List Nat) (h : ∀ x ∈ l, x ≤ k) :
    l.foldr max 0 ≤ k := by
  induction l with
  | nil => exact Nat.zero_le k
  | cons x xs ih =>
    simp only [List.foldr_cons]
    exact max_le (h x (List.mem_cons_self x xs))
      (ih (fun z hz => h z (List.mem_cons_of_mem x hz)))

theorem ncolsOf_eq (headerLines : List PyStr) (pipePos : List Nat)
    (hne : headerLines ≠ []) :
    ncolsOf headerLines pipePos = pipePos.length + 1 := by
  cases headerLines with
  | nil => exact absurd rfl hne
  | cons l ls =>
    simp only [ncolsOf, List.map_cons, List.foldr_cons]
    rw [split_fixed_width_length]
    apply max_eq_left
    apply foldr_max_le
    intro x hx
    rcases List.mem_map.1 hx with ⟨r, hr, rfl⟩
    rcases List.mem_map.1 hr with ⟨ln, _, rfl⟩
    rw [split_fixed_width_length]

theorem headerNames_length (headerLines : List PyStr) (pipePos : List Nat) :
    (headerNames headerLines pipePos).length = ncolsOf headerLines pipePos := by
  simp [headerNames]

theorem build_headers_length (headerLines : List PyStr) (pipePos : List Nat)
    (hne : headerLines ≠ []) :
    (build_headers headerLines pipePos).length = pipePos.length + 1 := by
  cases headerLines with
  | nil => exact absurd rfl hne
  | cons l ls =>
    simp only [build_headers, dedupe_headers]
    rw [dedupeHeadersAux_length, headerNames_length]
    exact ncolsOf_eq _ _ (List.cons_ne_nil l ls)

theorem dataRows_length (dataLines : List PyStr) (pipePos : List Nat)
    (ncols : Nat) :
    ∀ row ∈ dataRows dataLines pipePos ncols, row.length = ncols := by
  intro row hrow
  rcases List.mem_filterMap.1 hrow with ⟨ln, _, hln⟩
  by_cases h1 : is_separator ln
  · simp [h1] at hln
  by_cases h2 : '|' ∈ ln
  · simp only [h1, Bool.false_eq_true, if_false, h2, not_true_eq_false,
      if_false] at hln
    by_cases h3 : (padTrunc (split_fixed_width ln pipePos) ncols).all
        (fun c => pyStrip c = [])
    · simp [h3] at hln
    · simp only [h3, if_false] at hln
      cases hln
      exact padTrunc_length _ _
  · simp [h1, h2] at hln

/-- C7: a row sliced against a template with `k` pipe characters always
yields exactly `k+1` cells — short rows are padded and slicing is by the
template's positions, not per-row splitting; consequently the header builder
produces `k+1` column names and every assembled data row has `k+1` cells. -/
theorem parse_cells_spec :
    ∀ pipePos : List Nat,
      (∀ line, (split_fixed_width line pipePos).length
          = pipePos.length + 1) ∧
      (∀ headerLines, headerLines ≠ [] →
        (build_headers headerLines pipePos).length = pipePos.length + 1) ∧
      (∀ dataLines row,
        row ∈ dataRows dataLines pipePos (pipePos.length + 1) →
        row.length = pipePos.length + 1) := by
  intro pipePos
  exact ⟨fun line => split_fixed_width_length line pipePos,
    fun hls hne => build_headers_length hls pipePos hne,
    fun dls row hrow => dataRows_length dls pipePos _ row hrow⟩

/-- Witness for `parse_cells_spec`: a 2-pipe template over a short line, a
one-line header band, and a data line with a single pipe still yield three
cells everywhere. -/
theorem parse_cells_spec_witness :
    (split_fixed_width "x".toList [2, 6]).length = 3 ∧
    (build_headers ["Observed Unc".toList] [2, 6]).length = 3 ∧
    (["1".toList, "2".toList, []] ∈ dataRows ["1 | 2".toList] [2, 6] 3 ∧
      ([ "1".toList, "2".toList, [] ] : List PyStr).length = 3) := by
  refine ⟨(parse_cells_spec [2, 6]).1 "x".toList,
    (parse_cells_spec [2, 6]).2.1 ["Observed Unc".toList] (by decide),
    ?_, ?_⟩
  · decide
  · exact (parse_cells_spec [2, 6]).2.2 ["1 | 2".toList]
      ["1".toList, "2".toList, []] (by decide)

/-! ## Stable IDs (scrapers/common/ids.py, nist_asd/normalize_atomic.py)

The source's `short_hash` is the first 16 hex characters of a SHA-256
digest.  The digest is kept as an explicit function parameter `shortHash`:
every property proved below is universally quantified over it, so it holds
in particular for the source's digest.  Python floats reaching
`make_transition_record` are only ever rendered with `str(...)` before
hashing, so the numeric arguments are modelled by those rendered strings. -/

/-- Model of `make_id(prefix, *parts)` (ids.py lines 11-14). -/
def make_id (shortHash : String → String) (pfx : String)
    (parts : List String) : String :=
  pfx ++ "_" ++ shortHash (pfx ++ "|" ++ String.intercalate "|" parts)

/-- Model of Python `s or ""` on an optional string. -/
def orBlank : Option String → String
  | none => ""
  | some s => s

/-- Arguments of `make_transition_record` (normalize_atomic.py lines
199-214); numeric arguments appear as their `str(...)` renderings. -/
structure TransitionArgs where
  iso_id : String
  quantity_value : String
  quantity_unit : String
  quantity_uncertainty : String
  intensity_json : Option String
  extra_json : Option String
  selection_rules : Option String
  ref_id : Option String
  source : String
  notes : Option String
  upper_state_id : Option String
  lower_state_id : Option String
  dedupe_key : Option String
deriving DecidableEq

/-- The canonical transitions record built by `make_transition_record`. -/
structure TransitionRecord where
  transition_id : String
  iso_id : String
  upper_state_id : Option String
  lower_state_id : Option String
  quantity_value : String
  quantity_unit : String
  quantity_uncertainty : String
  intensity_json : Option String
  extra_json : Option String
  selection_rules : Option String
  ref_id : Option String
  source : String
  notes : Option String
deriving DecidableEq

/-- Model of `make_transition_record` (normalize_atomic.py lines 199-241):
the id hashes exactly `iso_id`, the rendered quantity value, the unit, the
rendered uncertainty, `selection_rules or ""`, `ref_id or ""` and
`dedupe_key or ""`. -/
def make_transition_record (shortHash : String → String)
    (a : TransitionArgs) : TransitionRecord where
  transition_id := make_id shortHash "trans"
    [a.iso_id, a.quantity_value, a.quantity_unit, a.quantity_uncertainty,
      orBlank a.selection_rules, orBlank a.ref_id, orBlank a.dedupe_key]
  iso_id := a.iso_id
  upper_state_id := a.upper_state_id
  lower_state_id := a.lower_state_id
  quantity_value := a.quantity_value
  quantity_unit := a.quantity_unit
  quantity_uncertainty := a.quantity_uncertainty
  intensity_json := a.intensity_json
  extra_json := a.extra_json
  selection_rules := a.selection_rules
  ref_id := a.ref_id
  source := a.source
  notes := a.notes

/-- C2: the transition id is a function of the seven defining fields only —
two argument tuples that agree on iso id, quantity value, unit, uncertainty,
selection rules, ref key and dedupe key receive the same `transition_id`, no
matter how their intensity payload, extras, source tag, notes or state ids
differ, and for every digest function. -/
theorem make_transition_record_stable_id :
    ∀ (shortHash : String → String) (a b : TransitionArgs),
      a.iso_id = b.iso_id →
      a.quantity_value = b.quantity_value →
      a.quantity_unit = b.quantity_unit →
      a.quantity_uncertainty = b.quantity_uncertainty →
      a.selection_rules = b.selection_rules →
      a.ref_id = b.ref_id →
      a.dedupe_key = b.dedupe_key →
      (make_transition_record shortHash a).transition_id
        = (make_transition_record shortHash b).transition_id := by
  intro f a b h1 h2 h3 h4 h5 h6 h7
  simp [make_transition_record, make_id, h1, h2, h3, h4, h5, h6, h7]

/-- Witness for `make_transition_record_stable_id`: two rows normalised in
different wavelength bins (different notes, intensity payload and extras)
share the same id. -/
theorem make_transition_record_stable_id_witness :
    (make_transition_record (fun s => s)
        ⟨"ASD:Fe:+1/main", "656.28", "nm", "0.01", some "\x7ba\x7d", none,
          some "E1", some "L:L1234", "NIST_ASD_LINES",
          some "NIST ASD lines for Fe II [0.0, 1000.0] nm", none, none,
          none⟩).transition_id
      = (make_transition_record (fun s => s)
        ⟨"ASD:Fe:+1/main", "656.28", "nm", "0.01", some "\x7bb\x7d",
          some "\x7bextras\x7d", some "E1", some "L:L1234",
          "NIST_ASD_LINES",
          some "NIST ASD lines for Fe II [1000.0, 2000.0] nm", none, none,
          none⟩).transition_id :=
  make_transition_record_stable_id (fun s => s) _ _ rfl rfl rfl rfl rfl rfl
    rfl

/-! ## Caching fetcher (src/spectra_db/scrapers/common/http.py)

The cache directory is modelled as association lists from request key to
body bytes and to metadata; the network is a function parameter `net`, the
clock a string parameter `now`, and the SHA-256 hex digest a function
parameter `sha` (properties hold for every digest).  `Eff` is the
vocabulary of observable effects the implementation could perform; `rename`
and `writeTemp` are available operations that `fetch_cached` turns out
never to emit. -/

/-- Metadata sidecar record, the fields of `<key>.meta.json`. -/
structure MetaRec where
  url : String
  params : List (String × String)
  status_code : Int
  retrieved_utc : String
  content_sha256 : String
  content_type : String
deriving DecidableEq

/-- A completed network response (status and body, however unsuccessful). -/
structure NetResponse where
  status_code : Int
  content : String
  content_type : String
deriving DecidableEq

/-- The cache directory: request key to body bytes, and to metadata. -/
structure CacheState where
  bodies : List (String × String)
  metas : List (String × MetaRec)
deriving DecidableEq

/-- Model of the `FetchResult` dataclass (http.py lines 13-23). -/
structure FetchResult where
  url : String
  params : List (String × String)
  status_code : Int
  retrieved_utc : String
  content_path : String
  meta_path : String
  from_cache : Bool
deriving DecidableEq

/-- Observable effects of one `fetch_cached` call. -/
inductive Eff where
  | netGet (url : String) (params : List (String × String))
  | writeBody (path : String) (content : String)
  | writeMeta (path : String) (meta : MetaRec)
  | writeTemp (path : String) (content : String)
  | rename (srcPath dstPath : String)
  | sleep (seconds : ℚ)
deriving DecidableEq

/-- Ordering used to model Python's `sorted` on `(key, value)` pairs. -/
def pairLe (a b : String × String) : Bool :=
  decide (a.1 < b.1) || (a.1 == b.1 && decide (a.2 ≤ b.2))

/-- Model of `stable_request_key` (http.py lines 31-35). -/
def stable_request_key (sha : String → String) (url : String)
    (params : List (String × String)) : String :=
  let items := params.mergeSort pairLe
  sha (url ++ "\n" ++
    String.intercalate "\n" (items.map (fun kv => kv.1 ++ "=" ++ kv.2)))

/-- The metadata record written on a network fetch (http.py lines
102-110). -/
def metaOf (sha : String → String) (net : String → List (String × String)
    → NetResponse) (now url : String) (params : List (String × String)) :
    MetaRec :=
  ⟨url, params, (net url params).status_code, now,
    sha (net url params).content, (net url params).content_type⟩

/-- The network path of `fetch_cached` (http.py lines 94-123): GET, write
the body, write the metadata, then apply the politeness delay. -/
def fetchNetwork (sha : String → String)
    (net : String → List (String × String) → NetResponse)
    (now url : String) (params : List (String × String)) (politeDelay : ℚ)
    (st : CacheState) : FetchResult × CacheState × List Eff :=
  let key := stable_request_key sha url params
  let m := metaOf sha net now url params
  (⟨url, params, (net url params).status_code, now, key ++ ".body",
      key ++ ".meta.json", false⟩,
    ⟨(key, (net url params).content) :: st.bodies, (key, m) :: st.metas⟩,
    [Eff.netGet url params,
      Eff.writeBody (key ++ ".body") (net url params).content,
      Eff.writeMeta (key ++ ".meta.json") m,
      Eff.sleep politeDelay])

/-- Model of `fetch_cached` (http.py lines 48-123): serve from cache when
both files exist and `force` is false, otherwise fetch over the network. -/
def fetch_cached (sha : String → String)
    (net : String → List (String × String) → NetResponse)
    (now url : String) (params : List (String × String)) (politeDelay : ℚ)
    (force : Bool) (st : CacheState) :
    FetchResult × CacheState × List Eff :=
  let key := stable_request_key sha url params
  match st.bodies.lookup key, st.metas.lookup key, force with
  | some _, some m, false =>
    (⟨url, params, m.status_code, m.retrieved_utc, key ++ ".body",
        key ++ ".meta.json", true⟩, st, [])
  | _, _, _ => fetchNetwork sha net now url params politeDelay st

/-- A call that did not come from cache took the network path. -/
theorem fetch_cached_of_not_cached (sha : String → String)
    (net : String → List (String × String) → NetResponse)
    (now url : String) (params : List (String × String)) (d : ℚ)
    (force : Bool) (st : CacheState)
    (h : (fetch_cached sha net now url params d force st).1.from_cache
      = false) :
    fetch_cached sha net now url params d force st
      = fetchNetwork sha net now url params d st := by
  unfold fetch_cached at h ⊢
  rcases hb : (st.bodies.lookup (stable_request_key sha url params)) with _ | b
  · simp [hb] at h ⊢
  · rcases hm : (st.metas.lookup (stable_request_key sha url params)) with _ | m
    · simp [hb, hm] at h ⊢
    · cases force with
      | false => simp [hb, hm] at h
      | true => simp [hb, hm] at h ⊢

/-- A call served from cache performs no effects and leaves the cache
untouched. -/
theorem fetch_cached_of_cached (sha : String → String)
    (net : String → List (String × String) → NetResponse)
    (now url : String) (params : List (String × String)) (d : ℚ)
    (force : Bool) (st : CacheState)
    (h : (fetch_cached sha net now url params d force st).1.from_cache
      = true) :
    (fetch_cached sha net now url params d force st).2.2 = [] ∧
      (fetch_cached sha net now url params d force st).2.1 = st := by
  unfold fetch_cached at h ⊢
  rcases hb : (st.bodies.lookup (stable_request_key sha url params)) with _ | b
  · simp [hb, fetchNetwork] at h
  · rcases hm : (st.metas.lookup (stable_request_key sha url params)) with _ | m
    · simp [hb, hm, fetchNetwork] at h
    · cases force with
      | false => simp [hb, hm]
      | true => simp [hb, hm, fetchNetwork] at h

/-- Cache-hit behaviour of `fetch_cached`, shared by the cache-determinism
and error-replay results below. -/
theorem fetch_cached_hit_spec :
    ∀ (sha : String → String)
      (net : String → List (String × String) → NetResponse)
      (now url : String) (params : List (String × String)) (d : ℚ)
      (st : CacheState) (b : String) (m : MetaRec),
      st.bodies.lookup (stable_request_key sha url params) = some b →
      st.metas.lookup (stable_request_key sha url params) = some m →
      ((fetch_cached sha net now url params d false st).1.from_cache = true ∧
        (fetch_cached sha net now url params d false st).1.status_code
          = m.status_code ∧
        (fetch_cached sha net now url params d false st).2.1 = st ∧
        (fetch_cached sha net now url params d false st).2.2 = []) ∧
      ∀ (force : Bool) (st2 : CacheState),
        ((fetch_cached sha net now url params d force st2).1.from_cache
            = false →
          (fetch_cached sha net now url params d force st2).2.2
            = [Eff.netGet url params,
               Eff.writeBody (stable_request_key sha url params ++ ".body")
                 (net url params).content,
               Eff.writeMeta
                 (stable_request_key sha url params ++ ".meta.json")
                 (metaOf sha net now url params),
               Eff.sleep d]) ∧
        ((fetch_cached sha net now url params d force st2).1.from_cache
            = true →
          (fetch_cached sha net now url params d force st2).2.2 = []) := by
  intro sha net now url params d st b m hb hm
  constructor
  · unfold fetch_cached
    simp [hb, hm]
  · intro force st2
    constructor
    · intro hf
      rw [fetch_cached_of_not_cached sha net now url params d force st2 hf]
      rfl
    · intro ht
      exact (fetch_cached_of_cached sha net now url params d force st2 ht).1

/-- C5: when both cache files exist and `force` is false, `fetch_cached`
returns the cached status with `from_cache = true`, touches neither the
network nor the clock and performs no effects — in particular no politeness
delay; and on every call the politeness delay happens exactly when a real
network fetch happens, as the last effect after the writes. -/
theorem fetch_cached_cache_hit :
    ∀ (sha : String → String)
      (net : String → List (String × String) → NetResponse)
      (now url : String) (params : List (String × String)) (d : ℚ)
      (st : CacheState) (b : String) (m : MetaRec),
      st.bodies.lookup (stable_request_key sha url params) = some b →
      st.metas.lookup (stable_request_key sha url params) = some m →
      ((fetch_cached sha net now url params d false st).1.from_cache = true ∧
        (fetch_cached sha net now url params d false st).1.status_code
          = m.status_code ∧
        (fetch_cached sha net now url params d false st).2.1 = st ∧
        (fetch_cached sha net now url params d false st).2.2 = []) ∧
      ∀ (force : Bool) (st2 : CacheState),
        ((fetch_cached sha net now url params d force st2).1.from_cache
            = false →
          (fetch_cached sha net now url params d force st2).2.2
            = [Eff.netGet url params,
               Eff.writeBody (stable_request_key sha url params ++ ".body")
                 (net url params).content,
               Eff.writeMeta
                 (stable_request_key sha url params ++ ".meta.json")
                 (metaOf sha net now url params),
               Eff.sleep d]) ∧
        ((fetch_cached sha net now url params d force st2).1.from_cache
            = true →
          (fetch_cached sha net now url params d force st2).2.2 = []) :=
  fetch_cached_hit_spec

/-- Witness for `fetch_cached_cache_hit`: a populated cache entry with
status 503 is served unchanged, with no effects. -/
theorem fetch_cached_cache_hit_witness :
    (fetch_cached (fun _ => "K") (fun _ _ => ⟨200, "new", "t"⟩) "t1" "u" []
        1 false ⟨[("K", "old")], [("K", ⟨"u", [], 503, "t0", "h", "t"⟩)]⟩).1.from_cache
      = true ∧
    (fetch_cached (fun _ => "K") (fun _ _ => ⟨200, "new", "t"⟩) "t1" "u" []
        1 false ⟨[("K", "old")], [("K", ⟨"u", [], 503, "t0", "h", "t"⟩)]⟩).1.status_code
      = 503 ∧
    (fetch_cached (fun _ => "K") (fun _ _ => ⟨200, "new", "t"⟩) "t1" "u" []
        1 false ⟨[("K", "old")], [("K", ⟨"u", [], 503, "t0", "h", "t"⟩)]⟩).2.2
      = [] := by
  have h := fetch_cached_cache_hit (fun _ => "K")
    (fun _ _ => ⟨200, "new", "t"⟩) "t1" "u" [] 1
    ⟨[("K", "old")], [("K", ⟨"u", [], 503, "t0", "h", "t"⟩)]⟩
    "old" ⟨"u", [], 503, "t0", "h", "t"⟩ (by decide) (by decide)
  exact ⟨h.1.1, h.1.2.1, h.1.2.2.2⟩

/-- C6: a completed response is always persisted — status included, error
statuses like 503 as much as 200 — and a subsequent `force = false` call
for the same request is served from cache with the first call's status, no
network activity and no state change, whatever network oracle a retry would
have seen. -/
theorem fetch_cached_retry_same_status :
    ∀ (sha : String → String)
      (net net2 : String → List (String × String) → NetResponse)
      (now now2 url : String) (params : List (String × String)) (d d2 : ℚ)
      (force : Bool) (st : CacheState),
      (fetch_cached sha net now url params d force st).1.from_cache
          = false →
      ((fetch_cached sha net now url params d force st).2.1).metas.lookup
          (stable_request_key sha url params)
        = some (metaOf sha net now url params) ∧
      ((fetch_cached sha net now url params d force st).2.1).bodies.lookup
          (stable_request_key sha url params)
        = some (net url params).content ∧
      (fetch_cached sha net2 now2 url params d2 false
          ((fetch_cached sha net now url params d force st).2.1)).1.from_cache
        = true ∧
      (fetch_cached sha net2 now2 url params d2 false
          ((fetch_cached sha net now url params d force st).2.1)).1.status_code
        = (fetch_cached sha net now url params d force st).1.status_code ∧
      (fetch_cached sha net2 now2 url params d2 false
          ((fetch_cached sha net now url params d force st).2.1)).2.2 = [] ∧
      (fetch_cached sha net2 now2 url params d2 false
          ((fetch_cached sha net now url params d force st).2.1)).2.1
        = (fetch_cached sha net now url params d force st).2.1 := by
  intro sha net net2 now now2 url params d d2 force st h
  rw [fetch_cached_of_not_cached sha net now url params d force st h]
  have hb : (fetchNetwork sha net now url params d st).2.1.bodies.lookup
      (stable_request_key sha url params)
      = some (net url params).content := by
    simp [fetchNetwork, List.lookup]
  have hm : (fetchNetwork sha net now url params d st).2.1.metas.lookup
      (stable_request_key sha url params)
      = some (metaOf sha net now url params) := by
    simp [fetchNetwork, List.lookup]
  have hsecond := fetch_cached_hit_spec sha net2 now2 url params d2
    (fetchNetwork sha net now url params d st).2.1
    (net url params).content (metaOf sha net now url params) hb hm
  refine ⟨hm, hb, hsecond.1.1, ?_, hsecond.1.2.2.2, hsecond.1.2.2.1⟩
  rw [hsecond.1.2.1]
  rfl

/-- Witness for `fetch_cached_retry_same_status`: a 503 response cached on
miss is replayed as 503 from cache on the retry. -/
theorem fetch_cached_retry_same_status_witness :
    (fetch_cached (fun _ => "K") (fun _ _ => ⟨200, "ok", "t"⟩) "t2" "u" [] 1
        false
        ((fetch_cached (fun _ => "K") (fun _ _ => ⟨503, "err", "t"⟩) "t1"
          "u" [] 1 false ⟨[], []⟩).2.1)).1.status_code
      = 503 ∧
    (fetch_cached (fun _ => "K") (fun _ _ => ⟨200, "ok", "t"⟩) "t2" "u" [] 1
        false
        ((fetch_cached (fun _ => "K") (fun _ _ => ⟨503, "err", "t"⟩) "t1"
          "u" [] 1 false ⟨[], []⟩).2.1)).1.from_cache = true := by
  have h := fetch_cached_retry_same_status (fun _ => "K")
    (fun _ _ => ⟨503, "err", "t"⟩) (fun _ _ => ⟨200, "ok", "t"⟩) "t1" "t2"
    "u" [] 1 1 false ⟨[], []⟩ (by decide)
  exact ⟨h.2.2.2.1, h.2.2.1⟩

/-- C9 as stated is false: a forced refetch over an existing cache entry
emits a direct body write followed by a direct metadata write — there is no
temporary-file write and no rename anywhere in its effect trace. -/
theorem fetch_cached_no_rename_counterexample :
    (fetch_cached (fun _ => "K") (fun _ _ => ⟨200, "new", "t"⟩) "t1" "u" []
        1 true ⟨[("K", "old")], [("K", ⟨"u", [], 200, "t0", "h", "t"⟩)]⟩).2.2
      = [Eff.netGet "u" [], Eff.writeBody "K.body" "new",
         Eff.writeMeta "K.meta.json" ⟨"u", [], 200, "t1", "K", "t"⟩,
         Eff.sleep 1] ∧
    ((fetch_cached (fun _ => "K") (fun _ _ => ⟨200, "new", "t"⟩) "t1" "u" []
        1 true ⟨[("K", "old")], [("K", ⟨"u", [], 200, "t0", "h", "t"⟩)]⟩).2.2.all
      (fun e => match e with
        | Eff.writeTemp _ _ => false
        | Eff.rename _ _ => false
        | _ => true)) = true := by
  constructor
  · decide
  · decide

/-- C9 (amended): a fetch that takes the network path — a forced refetch
included — overwrites the cache entry by writing the body directly to its
final path and only then the metadata to its final path; no temporary file
and no rename are involved, so the crash guarantee is only that metadata is
written after the body, not temp-then-rename atomicity. -/
theorem fetch_cached_write_order :
    ∀ (sha : String → String)
      (net : String → List (String × String) → NetResponse)
      (now url : String) (params : List (String × String)) (d : ℚ)
      (force : Bool) (st : CacheState),
      (fetch_cached sha net now url params d force st).1.from_cache
          = false →
      (fetch_cached sha net now url params d force st).2.2
        = [Eff.netGet url params,
           Eff.writeBody (stable_request_key sha url params ++ ".body")
             (net url params).content,
           Eff.writeMeta (stable_request_key sha url params ++ ".meta.json")
             (metaOf sha net now url params),
           Eff.sleep d] := by
  intro sha net now url params d force st h
  rw [fetch_cached_of_not_cached sha net now url params d force st h]
  rfl

/-- Witness for `fetch_cached_write_order` at the forced-refetch input of
the counterexample. -/
theorem fetch_cached_write_order_witness :
    (fetch_cached (fun _ => "K") (fun _ _ => ⟨200, "new", "t"⟩) "t1" "u" []
        1 true ⟨[("K", "old")], [("K", ⟨"u", [], 200, "t0", "h", "t"⟩)]⟩).2.2
      = [Eff.netGet "u" [], Eff.writeBody "K.body" "new",
         Eff.writeMeta "K.meta.json" ⟨"u", [], 200, "t1", "K", "t"⟩,
         Eff.sleep 1] := by
  have h := fetch_cached_write_order (fun _ => "K")
    (fun _ _ => ⟨200, "new", "t"⟩) "t1" "u" [] 1 true
    ⟨[("K", "old")], [("K", ⟨"u", [], 200, "t0", "h", "t"⟩)]⟩ (by decide)
  exact h

/-! ## Bulk ingest controller (tools/scrapers/nist_asd/bulk_ingest.py)

Wavelength arithmetic is modelled over `ℚ`; the source's float-printing
normalisation of checkpoint keys (`float(f"{lo:.12g}")`) is the identity on
exact rationals and is therefore dropped.  `run_lines` is a function
parameter (attempt-indexed, so distinct retry attempts may observe distinct
outcomes); `rowsOf` and `pageSizeOf` model
`_count_lines_rows(raw_path) or 0` and
`_read_page_size_from_meta(_derive_meta_path(raw_path)) or 0` as functions
of the recorded raw path.  The loop is written with explicit fuel so that
it evaluates; `ingest_lines_adaptive` supplies fuel that is proved
sufficient below, which is the termination argument. -/

/-- Model of the `FetchRunResult` dataclass (fetch_lines.py lines 55-61). -/
structure RunResult where
  ok : Bool
  written : Nat
  status : Option Int
  message : String
  rawPath : Option String
deriving DecidableEq

/-- The value `run` returns when the fetch raises — a timeout included —
per the `except` clause of fetch_lines.py lines 503-504: not ok, nothing
written, **no status code**, no raw path. -/
def runExceptionResult (msg : String) : RunResult :=
  ⟨false, 0, none, msg, none⟩

/-- Model of `_should_retry` (bulk_ingest.py lines 47-48):
`status_code in {429, 502, 503, 504}`; `None` is in no such set. -/
def should_retry (status : Option Int) : Bool :=
  match status with
  | some c => c == 429 || c == 502 || c == 503 || c == 504
  | none => false

/-- The per-bin retry loop (bulk_ingest.py lines 225-248): `attempt` is the
0-based attempt index, `left` the retries still allowed; returns the number
of fetch calls made and the last result. -/
def attemptLoop (oracle : Nat → RunResult) : Nat → Nat → Nat × RunResult
  | attempt, 0 => (attempt + 1, oracle attempt)
  | attempt, left + 1 =>
    let res := oracle attempt
    if res.ok then (attempt + 1, res)
    else if should_retry res.status then attemptLoop oracle (attempt + 1) left
    else (attempt + 1, res)

/-- Model of the `BulkConfig` dataclass (bulk_ingest.py lines 16-39). -/
structure BulkConfig where
  mode : String
  unitsLevels : String
  lineUnit : String
  wavelengthType : String
  wavMin : ℚ
  wavMax : ℚ
  initialBin : ℚ
  minBin : ℚ
  politeSleep : ℚ
  maxRetries : Nat
  backoffBase : ℚ
  force : Bool
  resume : Bool
  maxSplits : Nat
deriving DecidableEq

/-- Model of `_make_bins` (bulk_ingest.py lines 144-151). -/
def make_bins (wmin wmax width : ℚ) : List (ℚ × ℚ) :=
  (List.range (⌈(wmax - wmin) / width⌉).toNat).map
    (fun (i : Nat) => (wmin + (i : ℚ) * width,
      min wmax (wmin + (i : ℚ) * width + width)))

/-- A completed-bin checkpoint key:
`(spectrum, lo, hi, unit, wavelength_type)`. -/
abbrev LinesKey := String × ℚ × ℚ × String × String

/-- Outcome of one `ingest_lines_adaptive` call: overall success, rows
written, final message, splits performed, the bins accepted as leaves (in
processing order), and the total number of `run_lines` calls. -/
structure IngestResult where
  ok : Bool
  written : Nat
  message : String
  splits : Nat
  leaves : List (ℚ × ℚ)
  attempts : Nat
deriving DecidableEq

/-- The main loop of `ingest_lines_adaptive` (bulk_ingest.py lines
199-327) with explicit fuel: pop a bin, skip it when resuming over a
completed key, retry the fetch, abort the whole run on an unretried
failure, otherwise accept the bin as a leaf — or bisect it when the
truncation heuristic fires, the width still exceeds `min_bin` and the
split budget is not exhausted. -/
def ingestLoop (run : ℚ → ℚ → Nat → RunResult)
    (rowsOf pageSizeOf : Option String → Nat) (spec : String)
    (cfg : BulkConfig) :
    Nat → List (ℚ × ℚ) → List LinesKey → Nat → Nat → Nat → List (ℚ × ℚ) →
      Option IngestResult
  | 0, _, _, _, _, _, _ => none
  | _ + 1, [], _, splits, total, attempts, leaves =>
    some ⟨true, total, "OK", splits, leaves.reverse, attempts⟩
  | fuel + 1, (lo, hi) :: rest, done, splits, total, attempts, leaves =>
    if cfg.resume ∧ (spec, lo, hi, cfg.lineUnit, cfg.wavelengthType) ∈ done
    then
      ingestLoop run rowsOf pageSizeOf spec cfg fuel rest done splits total
        attempts leaves
    else
      let ar := attemptLoop (run lo hi) 0 cfg.maxRetries
      if ar.2.ok then
        if 0 < pageSizeOf ar.2.rawPath ∧
            pageSizeOf ar.2.rawPath ≤ rowsOf ar.2.rawPath then
          if hi - lo ≤ cfg.minBin then
            ingestLoop run rowsOf pageSizeOf spec cfg fuel rest
              ((spec, lo, hi, cfg.lineUnit, cfg.wavelengthType) :: done)
              splits (total + ar.2.written) (attempts + ar.1)
              ((lo, hi) :: leaves)
          else if cfg.maxSplits ≤ splits then
            ingestLoop run rowsOf pageSizeOf spec cfg fuel rest
              ((spec, lo, hi, cfg.lineUnit, cfg.wavelengthType) :: done)
              splits (total + ar.2.written) (attempts + ar.1)
              ((lo, hi) :: leaves)
          else
            ingestLoop run rowsOf pageSizeOf spec cfg fuel
              ((lo, (lo + hi) / 2) :: ((lo + hi) / 2, hi) :: rest)
              ((spec, lo, hi, cfg.lineUnit, cfg.wavelengthType) :: done)
              (splits + 1) (total + ar.2.written) (attempts + ar.1) leaves
        else
          ingestLoop run rowsOf pageSizeOf spec cfg fuel rest
            ((spec, lo, hi, cfg.lineUnit, cfg.wavelengthType) :: done)
            splits (total + ar.2.written) (attempts + ar.1)
            ((lo, hi) :: leaves)
      else
        some ⟨false, total, ar.2.message, splits, leaves.reverse,
          attempts + ar.1⟩

/-- Model of `ingest_lines_adaptive`, supplying fuel large enough for the
whole run (sufficiency proved in `ingestLoop_stub_spec`). -/
def ingest_lines_adaptive (run : ℚ → ℚ → Nat → RunResult)
    (rowsOf pageSizeOf : Option String → Nat) (spec : String)
    (cfg : BulkConfig) (done : List LinesKey) : Option IngestResult :=
  ingestLoop run rowsOf pageSizeOf spec cfg
    (2 * cfg.maxSplits + (make_bins cfg.wavMin cfg.wavMax cfg.initialBin).length + 1)
    (make_bins cfg.wavMin cfg.wavMax cfg.initialBin) done 0 0 0 []

/-- A successful first attempt ends the retry loop after one call. -/
theorem attemptLoop_first_ok (oracle : Nat → RunResult) (left : Nat)
    (h : (oracle 0).ok = true) : attemptLoop oracle 0 left = (1, oracle 0) := by
  cases left with
  | zero => rfl
  | succ l => simp [attemptLoop, h]

/-- The retry loop makes at least `attempt + 1` calls counting from
`attempt`. -/
theorem attemptLoop_fst_ge (oracle : Nat → RunResult) :
    ∀ (left attempt : Nat), attempt + 1 ≤ (attemptLoop oracle attempt left).1 := by
  intro left
  induction left with
  | zero => intro attempt; simp [attemptLoop]
  | succ l ih =>
    intro attempt
    simp only [attemptLoop]
    by_cases hok : (oracle attempt).ok
    · simp [hok]
    · simp only [hok, Bool.false_eq_true, if_false]
      by_cases hr : should_retry (oracle attempt).status
      · simp only [hr, if_true]
        have := ih (attempt + 1)
        omega
      · simp [hr]

/-- C3 (amended): a fetch that times out surfaces as a caught exception —
`run` returns a failure with **no status code** — and `_should_retry(None)`
is false, so the bin is abandoned after exactly one call and the failure
aborts the run immediately; only HTTP 429/502/503/504 failures are retried
(a retryable first failure always triggers at least a second call when
retries remain). -/
theorem timeout_aborts_without_retry :
    ∀ (oracle : Nat → RunResult) (maxRetries : Nat) (msg : String),
      oracle 0 = runExceptionResult msg →
      (attemptLoop oracle 0 maxRetries = (1, runExceptionResult msg) ∧
        (runExceptionResult msg).ok = false ∧
        should_retry (runExceptionResult msg).status = false) ∧
      (∀ c : Int, c = 429 ∨ c = 502 ∨ c = 503 ∨ c = 504 →
        should_retry (some c) = true) ∧
      ∀ (oracle2 : Nat → RunResult) (l : Nat),
        (oracle2 0).ok = false → should_retry (oracle2 0).status = true →
        2 ≤ (attemptLoop oracle2 0 (l + 1)).1 := by
  intro oracle maxRetries msg h
  refine ⟨⟨?_, rfl, rfl⟩, ?_, ?_⟩
  · cases maxRetries with
    | zero => simp [attemptLoop, h]
    | succ l => simp [attemptLoop, h, runExceptionResult, should_retry]
  · intro c hc
    rcases hc with rfl | rfl | rfl | rfl <;> rfl
  · intro oracle2 l h1 h2
    simp only [attemptLoop, h1, Bool.false_eq_true, if_false, h2, if_true,
      Nat.zero_add]
    have := attemptLoop_fst_ge oracle2 l 1
    omega

/-- Witness for `timeout_aborts_without_retry` at a concrete
always-timeout oracle with three allowed retries. -/
theorem timeout_aborts_without_retry_witness :
    attemptLoop (fun _ => runExceptionResult "Exception: ReadTimeout") 0 3
        = (1, runExceptionResult "Exception: ReadTimeout") ∧
      should_retry (some 503) = true :=
  ⟨(timeout_aborts_without_retry
      (fun _ => runExceptionResult "Exception: ReadTimeout") 3
      "Exception: ReadTimeout" rfl).1.1,
    (timeout_aborts_without_retry
      (fun _ => runExceptionResult "Exception: ReadTimeout") 3
      "Exception: ReadTimeout" rfl).2.1 503 (Or.inr (Or.inr (Or.inl rfl)))⟩

/-- C3 as stated is false: with `max_retries = 3` and a fetch that always
times out, the bin gets exactly one attempt — not four — because the caught
exception carries status `None`, which `_should_retry` rejects, and the
whole domain run aborts at once with zero leaves. -/
theorem timeout_retry_claim_counterexample :
    should_retry none = false ∧
    attemptLoop (fun _ => runExceptionResult "Exception: ReadTimeout") 0 3
      ≠ (3 + 1, runExceptionResult "Exception: ReadTimeout") ∧
    ingest_lines_adaptive
        (fun _ _ _ => runExceptionResult "Exception: ReadTimeout")
        (fun _ => 0) (fun _ => 0) "H I"
        ⟨"lines", "cm-1", "nm", "vacuum", 0, 2, 2, 1, 0, 3, 2, false, false,
          100⟩ []
      = some ⟨false, 0, "Exception: ReadTimeout", 0, [], 1⟩ := by
  refine ⟨rfl, by decide, ?_⟩
  have hq : make_bins 0 2 2 = [(0, 2)] := by
    have h1 : ((2 : ℚ) - 0) / 2 = 1 := by norm_num
    simp only [make_bins, h1, Int.ceil_one, Int.toNat_one]
    norm_num [List.range_succ]
  show ingestLoop _ _ _ _ _ _ (make_bins 0 2 2) _ _ _ _ _ = _
  rw [hq]
  decide

/-- Every initial bin sits inside the requested domain with ordered
endpoints. -/
theorem make_bins_subset (wmin wmax width : ℚ) (hw : 0 < width) :
    ∀ b ∈ make_bins wmin wmax width,
      wmin ≤ b.1 ∧ b.1 ≤ b.2 ∧ b.2 ≤ wmax := by
  intro b hb
  rcases List.mem_map.1 hb with ⟨i, hir, rfl⟩
  have hi := List.mem_range.mp hir
  have hi' : (i : ℤ) < ⌈(wmax - wmin) / width⌉ := by omega
  have hlt : (i : ℚ) < (wmax - wmin) / width := by
    have := Int.lt_ceil.mp hi'
    exact_mod_cast this
  have h1 : (i : ℚ) * width < wmax - wmin := (lt_div_iff₀ hw).mp hlt
  have h0 : 0 ≤ (i : ℚ) * width := by positivity
  refine ⟨by simpa using h0, ?_, min_le_left _ _⟩
  refine le_min (by simp only; linarith) (by simp only; linarith)

/-- The initial bins cover the whole requested domain. -/
theorem make_bins_cover (wmin wmax width : ℚ) (hw : 0 < width)
    (hlt : wmin < wmax) (x : ℚ) (hx1 : wmin ≤ x) (hx2 : x ≤ wmax) :
    ∃ b ∈ make_bins wmin wmax width, b.1 ≤ x ∧ x ≤ b.2 := by
  have hdpos : 0 < wmax - wmin := by linarith
  have hnpos : 0 < ⌈(wmax - wmin) / width⌉ :=
    Int.ceil_pos.mpr (div_pos hdpos hw)
  have hub : wmax - wmin ≤ (⌈(wmax - wmin) / width⌉ : ℚ) * width := by
    have h1 : (wmax - wmin) / width ≤ (⌈(wmax - wmin) / width⌉ : ℚ) :=
      Int.le_ceil _
    have h2 := mul_le_mul_of_nonneg_right h1 hw.le
    rwa [div_mul_cancel₀ _ (ne_of_gt hw)] at h2
  have ht0 : 0 ≤ (x - wmin) / width := div_nonneg (by linarith) hw.le
  have hj0 : 0 ≤ ⌊(x - wmin) / width⌋ := Int.floor_nonneg.mpr ht0
  have htw : (x - wmin) / width * width = x - wmin :=
    div_mul_cancel₀ _ (ne_of_gt hw)
  by_cases hcase : ⌊(x - wmin) / width⌋ ≤ ⌈(wmax - wmin) / width⌉ - 1
  · refine ⟨(wmin + (⌊(x - wmin) / width⌋.toNat : ℚ) * width,
      min wmax (wmin + (⌊(x - wmin) / width⌋.toNat : ℚ) * width + width)),
      ?_, ?_, ?_⟩
    · have hmem : ⌊(x - wmin) / width⌋.toNat
          ∈ List.range (⌈(wmax - wmin) / width⌉).toNat :=
        List.mem_range.2 (by omega)
      exact List.mem_map.2 ⟨_, hmem, rfl⟩
    · have hcast : ((⌊(x - wmin) / width⌋.toNat : ℚ))
          = ((⌊(x - wmin) / width⌋ : ℤ) : ℚ) := by
        exact_mod_cast congrArg (fun z : ℤ => (z : ℚ))
          (Int.toNat_of_nonneg hj0)
      rw [hcast]
      have hfl : ((⌊(x - wmin) / width⌋ : ℤ) : ℚ) ≤ (x - wmin) / width :=
        Int.floor_le _
      have := mul_le_mul_of_nonneg_right hfl hw.le
      rw [htw] at this
      linarith
    · have hcast : ((⌊(x - wmin) / width⌋.toNat : ℚ))
          = ((⌊(x - wmin) / width⌋ : ℤ) : ℚ) := by
        exact_mod_cast congrArg (fun z : ℤ => (z : ℚ))
          (Int.toNat_of_nonneg hj0)
      rw [hcast]
      refine le_min hx2 ?_
      have hfl : (x - wmin) / width
          < ((⌊(x - wmin) / width⌋ : ℤ) : ℚ) + 1 := Int.lt_floor_add_one _
      have := mul_lt_mul_of_pos_right hfl hw
      rw [htw] at this
      nlinarith
  · push_neg at hcase
    have hnj : ⌈(wmax - wmin) / width⌉ ≤ ⌊(x - wmin) / width⌋ := by omega
    have hn1 : (0 : ℤ) ≤ ⌈(wmax - wmin) / width⌉ - 1 := by omega
    refine ⟨(wmin + ((⌈(wmax - wmin) / width⌉ - 1).toNat : ℚ) * width,
      min wmax
        (wmin + ((⌈(wmax - wmin) / width⌉ - 1).toNat : ℚ) * width + width)),
      ?_, ?_, ?_⟩
    · have hmem : (⌈(wmax - wmin) / width⌉ - 1).toNat
          ∈ List.range (⌈(wmax - wmin) / width⌉).toNat :=
        List.mem_range.2 (by omega)
      exact List.mem_map.2 ⟨_, hmem, rfl⟩
    · have hcast : (((⌈(wmax - wmin) / width⌉ - 1).toNat : ℚ))
          = ((⌈(wmax - wmin) / width⌉ - 1 : ℤ) : ℚ) := by
        exact_mod_cast congrArg (fun z : ℤ => (z : ℚ))
          (Int.toNat_of_nonneg hn1)
      rw [hcast]
      have hnt : ((⌈(wmax - wmin) / width⌉ : ℤ) : ℚ) ≤ (x - wmin) / width := by
        have h1 : ((⌈(wmax - wmin) / width⌉ : ℤ) : ℚ)
            ≤ ((⌊(x - wmin) / width⌋ : ℤ) : ℚ) := by exact_mod_cast hnj
        exact le_trans h1 (Int.floor_le _)
      have := mul_le_mul_of_nonneg_right hnt hw.le
      rw [htw] at this
      push_cast
      nlinarith
    · have hcast : (((⌈(wmax - wmin) / width⌉ - 1).toNat : ℚ))
          = ((⌈(wmax - wmin) / width⌉ - 1 : ℤ) : ℚ) := by
        exact_mod_cast congrArg (fun z : ℤ => (z : ℚ))
          (Int.toNat_of_nonneg hn1)
      rw [hcast]
      refine le_min hx2 ?_
      push_cast
      nlinarith

/-- Main invariant of the adaptive loop under the always-truncated stub:
with enough fuel the loop completes successfully; its splits only grow and
never exceed the budget; every accepted leaf was already a leaf, or is
narrower than `min_bin`, or was kept because the budget filled up; every
leaf lies inside some original queue bin; and every point covered by the
queue or the old leaves is covered by the final leaves. -/
theorem ingestLoop_stub_spec
    (run : ℚ → ℚ → Nat → RunResult)
    (rowsOf pageSizeOf : Option String → Nat) (spec : String)
    (cfg : BulkConfig)
    (hok : ∀ lo hi a, (run lo hi a).ok = true)
    (hstub : ∀ rp, rowsOf rp = pageSizeOf rp ∧ 0 < pageSizeOf rp)
    (hres : cfg.resume = false) :
    ∀ (fuel : Nat) (queue : List (ℚ × ℚ)) (done : List LinesKey)
      (splits total attempts : Nat) (leaves : List (ℚ × ℚ)),
      splits ≤ cfg.maxSplits →
      2 * (cfg.maxSplits - splits) + queue.length < fuel →
      (∀ b ∈ queue, b.1 ≤ b.2) →
      ∃ r, ingestLoop run rowsOf pageSizeOf spec cfg fuel queue done splits
          total attempts leaves = some r ∧
        r.ok = true ∧
        splits ≤ r.splits ∧ r.splits ≤ cfg.maxSplits ∧
        (∀ b ∈ r.leaves, b ∈ leaves ∨ b.2 - b.1 ≤ cfg.minBin ∨
          r.splits = cfg.maxSplits) ∧
        (∀ b ∈ r.leaves, b ∈ leaves ∨
          ∃ q ∈ queue, q.1 ≤ b.1 ∧ b.1 ≤ b.2 ∧ b.2 ≤ q.2) ∧
        (∀ x : ℚ,
          ((∃ b ∈ queue, b.1 ≤ x ∧ x ≤ b.2) ∨
            ∃ b ∈ leaves, b.1 ≤ x ∧ x ≤ b.2) →
          ∃ b ∈ r.leaves, b.1 ≤ x ∧ x ≤ b.2) := by
  intro fuel
  induction fuel with
  | zero =>
    intro queue done splits total attempts leaves _ h2 _
    omega
  | succ fuel ih =>
    intro queue done splits total attempts leaves hsp hfuel hq
    cases queue with
    | nil =>
      refine ⟨⟨true, total, "OK", splits, leaves.reverse, attempts⟩, rfl,
        rfl, le_refl _, hsp, ?_, ?_, ?_⟩
      · intro b hb
        exact Or.inl (List.mem_reverse.mp hb)
      · intro b hb
        exact Or.inl (List.mem_reverse.mp hb)
      · intro x hx
        rcases hx with ⟨c, hc, hxx⟩ | ⟨c, hc, hxx⟩
        · simp at hc
        · exact ⟨c, List.mem_reverse.mpr hc, hxx⟩
    | cons b rest =>
      obtain ⟨lo, hi⟩ := b
      have hlohi : lo ≤ hi := hq (lo, hi) (List.mem_cons_self _ _)
      have hlen : ((lo, hi) :: rest).length = rest.length + 1 :=
        List.length_cons _ _
      simp only [ingestLoop]
      rw [if_neg (by simp [hres])]
      rw [attemptLoop_first_ok (run lo hi) cfg.maxRetries (hok lo hi 0)]
      dsimp only
      rw [if_pos (hok lo hi 0)]
      rw [if_pos (⟨(hstub (run lo hi 0).rawPath).2,
        le_of_eq (hstub (run lo hi 0).rawPath).1.symm⟩ :
          0 < pageSizeOf (run lo hi 0).rawPath ∧
            pageSizeOf (run lo hi 0).rawPath
              ≤ rowsOf (run lo hi 0).rawPath)]
      by_cases hw : hi - lo ≤ cfg.minBin
      · rw [if_pos hw]
        obtain ⟨r, hr, hro, hs1, hs2, hleaf, hcont, hcov⟩ :=
          ih rest ((spec, lo, hi, cfg.lineUnit, cfg.wavelengthType) :: done)
            splits (total + (run lo hi 0).written) (attempts + 1)
            ((lo, hi) :: leaves) hsp (by rw [hlen] at hfuel; omega)
            (fun c hc => hq c (List.mem_cons_of_mem _ hc))
        refine ⟨r, hr, hro, hs1, hs2, ?_, ?_, ?_⟩
        · intro c hc
          rcases hleaf c hc with hmem | hrest
          · rcases List.mem_cons.1 hmem with rfl | hmem
            · exact Or.inr (Or.inl hw)
            · exact Or.inl hmem
          · exact Or.inr hrest
        · intro c hc
          rcases hcont c hc with hmem | ⟨q, hqmem, hqb⟩
          · rcases List.mem_cons.1 hmem with rfl | hmem
            · exact Or.inr ⟨(lo, hi), List.mem_cons_self _ _, le_refl _,
                hlohi, le_refl _⟩
            · exact Or.inl hmem
          · exact Or.inr ⟨q, List.mem_cons_of_mem _ hqmem, hqb⟩
        · intro x hx
          apply hcov x
          rcases hx with ⟨c, hc, hxx⟩ | ⟨c, hc, hxx⟩
          · rcases List.mem_cons.1 hc with rfl | hc
            · exact Or.inr ⟨(lo, hi), List.mem_cons_self _ _, hxx⟩
            · exact Or.inl ⟨c, hc, hxx⟩
          · exact Or.inr ⟨c, List.mem_cons_of_mem _ hc, hxx⟩
      · rw [if_neg hw]
        by_cases hbud : cfg.maxSplits ≤ splits
        · rw [if_pos hbud]
          have hspeq : splits = cfg.maxSplits := le_antisymm hsp hbud
          obtain ⟨r, hr, hro, hs1, hs2, hleaf, hcont, hcov⟩ :=
            ih rest
              ((spec, lo, hi, cfg.lineUnit, cfg.wavelengthType) :: done)
              splits (total + (run lo hi 0).written) (attempts + 1)
              ((lo, hi) :: leaves) hsp (by rw [hlen] at hfuel; omega)
              (fun c hc => hq c (List.mem_cons_of_mem _ hc))
          refine ⟨r, hr, hro, hs1, hs2, ?_, ?_, ?_⟩
          · intro c hc
            rcases hleaf c hc with hmem | hrest
            · rcases List.mem_cons.1 hmem with rfl | hmem
              · refine Or.inr (Or.inr ?_)
                omega
              · exact Or.inl hmem
            · exact Or.inr hrest
          · intro c hc
            rcases hcont c hc with hmem | ⟨q, hqmem, hqb⟩
            · rcases List.mem_cons.1 hmem with rfl | hmem
              · exact Or.inr ⟨(lo, hi), List.mem_cons_self _ _, le_refl _,
                  hlohi, le_refl _⟩
              · exact Or.inl hmem
            · exact Or.inr ⟨q, List.mem_cons_of_mem _ hqmem, hqb⟩
          · intro x hx
            apply hcov x
            rcases hx with ⟨c, hc, hxx⟩ | ⟨c, hc, hxx⟩
            · rcases List.mem_cons.1 hc with rfl | hc
              · exact Or.inr ⟨(lo, hi), List.mem_cons_self _ _, hxx⟩
              · exact Or.inl ⟨c, hc, hxx⟩
            · exact Or.inr ⟨c, List.mem_cons_of_mem _ hc, hxx⟩
        · rw [if_neg hbud]
          have hsplt : splits < cfg.maxSplits := Nat.lt_of_not_le hbud
          have hmid1 : lo ≤ (lo + hi) / 2 := by linarith
          have hmid2 : (lo + hi) / 2 ≤ hi := by linarith
          have hqb2 : ∀ c ∈ (lo, (lo + hi) / 2) ::
              (((lo + hi) / 2, hi) :: rest), c.1 ≤ c.2 := by
            intro c hc
            rcases List.mem_cons.1 hc with rfl | hc'
            · exact hmid1
            · rcases List.mem_cons.1 hc' with rfl | hc''
              · exact hmid2
              · exact hq c (List.mem_cons_of_mem _ hc'')
          obtain ⟨r, hr, hro, hs1, hs2, hleaf, hcont, hcov⟩ :=
            ih ((lo, (lo + hi) / 2) :: (((lo + hi) / 2, hi) :: rest))
              ((spec, lo, hi, cfg.lineUnit, cfg.wavelengthType) :: done)
              (splits + 1) (total + (run lo hi 0).written) (attempts + 1)
              leaves (by omega)
              (by simp only [List.length_cons] at hfuel ⊢; omega) hqb2
          refine ⟨r, hr, hro, by omega, hs2, hleaf, ?_, ?_⟩
          · intro c hc
            rcases hcont c hc with hmem | ⟨q, hqmem, hq1, hq2, hq3⟩
            · exact Or.inl hmem
            · rcases List.mem_cons.1 hqmem with rfl | hqmem'
              · exact Or.inr ⟨(lo, hi), List.mem_cons_self _ _, hq1, hq2,
                  le_trans hq3 hmid2⟩
              · rcases List.mem_cons.1 hqmem' with rfl | hqmem''
                · exact Or.inr ⟨(lo, hi), List.mem_cons_self _ _,
                    le_trans hmid1 hq1, hq2, hq3⟩
                · exact Or.inr ⟨q, List.mem_cons_of_mem _ hqmem'', hq1,
                    hq2, hq3⟩
          · intro x hx
            apply hcov x
            rcases hx with ⟨c, hc, hxx⟩ | h2
            · rcases List.mem_cons.1 hc with rfl | hc
              · rcases le_total x ((lo + hi) / 2) with hxm | hxm
                · exact Or.inl ⟨(lo, (lo + hi) / 2),
                    List.mem_cons_self _ _, hxx.1, hxm⟩
                · exact Or.inl ⟨((lo + hi) / 2, hi),
                    List.mem_cons_of_mem _ (List.mem_cons_self _ _), hxm,
                    hxx.2⟩
              · exact Or.inl ⟨c,
                  List.mem_cons_of_mem _ (List.mem_cons_of_mem _ hc), hxx⟩
            · exact Or.inr h2

/-- C8: under a stub that always succeeds and always reports
`parsed_rows = page_size > 0` (always truncated), the adaptive ingest over
`[wav_min, wav_max]` terminates successfully (the fuel supplied by
`ingest_lines_adaptive` suffices); every accepted leaf bin is at most
`min_bin` wide unless the split budget was exhausted; and the union of the
leaf bins is exactly the requested domain. -/
theorem ingest_adaptive_stub_spec :
    ∀ (run : ℚ → ℚ → Nat → RunResult)
      (rowsOf pageSizeOf : Option String → Nat) (spec : String)
      (cfg : BulkConfig) (done : List LinesKey),
      (∀ lo hi a, (run lo hi a).ok = true) →
      (∀ rp, rowsOf rp = pageSizeOf rp ∧ 0 < pageSizeOf rp) →
      cfg.resume = false →
      0 < cfg.initialBin → 0 < cfg.minBin → cfg.wavMin < cfg.wavMax →
      ∃ r, ingest_lines_adaptive run rowsOf pageSizeOf spec cfg done
          = some r ∧
        r.ok = true ∧
        (∀ b ∈ r.leaves, b.2 - b.1 ≤ cfg.minBin ∨
          r.splits = cfg.maxSplits) ∧
        ∀ x : ℚ, (cfg.wavMin ≤ x ∧ x ≤ cfg.wavMax) ↔
          ∃ b ∈ r.leaves, b.1 ≤ x ∧ x ≤ b.2 := by
  intro run rowsOf pageSizeOf spec cfg done hok hstub hres hib hmb hwlt
  obtain ⟨r, hr, hro, _, _, hleaf, hcont, hcov⟩ :=
    ingestLoop_stub_spec run rowsOf pageSizeOf spec cfg hok hstub hres
      (2 * cfg.maxSplits
        + (make_bins cfg.wavMin cfg.wavMax cfg.initialBin).length + 1)
      (make_bins cfg.wavMin cfg.wavMax cfg.initialBin) done 0 0 0 []
      (Nat.zero_le _) (by omega)
      (fun b hb => (make_bins_subset _ _ _ hib b hb).2.1)
  refine ⟨r, hr, hro, ?_, ?_⟩
  · intro b hb
    rcases hleaf b hb with hmem | h
    · simp at hmem
    · exact h
  · intro x
    constructor
    · intro hx
      obtain ⟨b, hbm, hbx⟩ := make_bins_cover cfg.wavMin cfg.wavMax
        cfg.initialBin hib hwlt x hx.1 hx.2
      exact hcov x (Or.inl ⟨b, hbm, hbx⟩)
    · intro hx
      obtain ⟨b, hbm, hbx⟩ := hx
      rcases hcont b hbm with hmem | ⟨q, hqm, hq1, hq2, hq3⟩
      · simp at hmem
      · have hs := make_bins_subset _ _ _ hib q hqm
        constructor
        · linarith [hs.1, hbx.1]
        · linarith [hs.2.2, hbx.2]

/-- Witness for `ingest_adaptive_stub_spec` at the concrete always-full
stub over the domain `[0, 2]`. -/
theorem ingest_adaptive_stub_spec_witness :
    (0 : ℚ) < 2 ∧
      ∃ r, ingest_lines_adaptive
          (fun _ _ _ => ⟨true, 2, some 200, "OK", some "p"⟩)
          (fun _ => 2) (fun _ => 2) "H I"
          ⟨"lines", "cm-1", "nm", "vacuum", 0, 2, 2, 1, 0, 0, 2, false,
            false, 100⟩ []
        = some r ∧ r.ok = true := by
  refine ⟨by norm_num, ?_⟩
  obtain ⟨r, hr, hro, _, _⟩ := ingest_adaptive_stub_spec
    (fun _ _ _ => ⟨true, 2, some 200, "OK", some "p"⟩) (fun _ => 2)
    (fun _ => 2) "H I"
    ⟨"lines", "cm-1", "nm", "vacuum", 0, 2, 2, 1, 0, 0, 2, false, false,
      100⟩ []
    (fun _ _ _ => rfl) (fun _ => ⟨rfl, by norm_num⟩) rfl (by norm_num)
    (by norm_num) (by norm_num)
  exact ⟨r, hr, hro⟩

/-! ## Checkpoint loaders (bulk_ingest.py lines 56-98)

One JSONL line is modelled by the fields the loaders read, each optional: a
line that fails to parse, lacks the accessed field, or holds a value of the
wrong type makes the source's `try` block skip it, which the `none` cases
reproduce (`ok` must be the JSON literal `true` — `obj.get("ok") is not
True` — so any other value collapses to `none` or `some false`). -/

/-- The checkpoint fields read by the loaders. -/
structure CkptLine where
  kind : Option String
  ok : Option Bool
  spectrum : Option String
  lo : Option ℚ
  hi : Option ℚ
  unit : Option String
  wavelengthType : Option String
deriving DecidableEq

/-- The `(spectrum, lo, hi, unit, wavelength_type)` key of a lines event;
`none` when any field is missing (the source raises `KeyError` and skips
the line). -/
def lineKeyOf (e : CkptLine) : Option LinesKey :=
  match e.spectrum, e.lo, e.hi, e.unit, e.wavelengthType with
  | some s, some lo, some hi, some u, some w => some (s, lo, hi, u, w)
  | _, _, _, _, _ => none

/-- Model of `_load_lines_checkpoint` (bulk_ingest.py lines 56-78): collect
the key of every well-formed `lines` event whose `ok` is `true`. -/
def load_lines_checkpoint (log : List CkptLine) : List LinesKey :=
  log.filterMap (fun e =>
    if e.kind = some "lines" ∧ e.ok = some true then lineKeyOf e else none)

/-- Model of `_load_levels_checkpoint` (bulk_ingest.py lines 81-98). -/
def load_levels_checkpoint (log : List CkptLine) : List String :=
  log.filterMap (fun e =>
    if e.kind = some "levels" ∧ e.ok = some true then e.spectrum else none)

/-- The claim's description of the loader, written from the spec's words:
a key counts as completed when the most recent relevant event for it in the
log is a success. -/
def latest_relevant_success_lines (log : List CkptLine) (k : LinesKey) :
    Bool :=
  match (log.filter (fun e =>
      decide (e.kind = some "lines" ∧ lineKeyOf e = some k))).getLast? with
  | some e => e.ok = some true
  | none => false

/-- C4 as stated is false: a key whose success is followed by a later
failure for the same key stays in the loaded completed set, although its
most recent relevant event is the failure. -/
theorem load_completed_claim_counterexample :
    ("Fe II", (0 : ℚ), (2 : ℚ), "nm", "vacuum") ∈ load_lines_checkpoint
        [⟨some "lines", some true, some "Fe II", some 0, some 2, some "nm",
            some "vacuum"⟩,
          ⟨some "lines", some false, some "Fe II", some 0, some 2,
            some "nm", some "vacuum"⟩] ∧
      latest_relevant_success_lines
        [⟨some "lines", some true, some "Fe II", some 0, some 2, some "nm",
            some "vacuum"⟩,
          ⟨some "lines", some false, some "Fe II", some 0, some 2,
            some "nm", some "vacuum"⟩]
        ("Fe II", (0 : ℚ), (2 : ℚ), "nm", "vacuum") = false := by
  constructor
  · decide
  · decide

/-- C4 (amended): the loaders return exactly the keys carrying **at least
one** successful relevant event anywhere in the log — not the keys whose
most recent relevant event is a success; in particular a key all of whose
events are failures is absent, so the next run retries it. -/
theorem load_completed_any_success :
    ∀ log : List CkptLine,
      (∀ k : LinesKey, k ∈ load_lines_checkpoint log ↔
        ∃ e ∈ log, e.kind = some "lines" ∧ e.ok = some true ∧
          lineKeyOf e = some k) ∧
      ∀ s : String, s ∈ load_levels_checkpoint log ↔
        ∃ e ∈ log, e.kind = some "levels" ∧ e.ok = some true ∧
          e.spectrum = some s := by
  intro log
  constructor
  · intro k
    simp only [load_lines_checkpoint, List.mem_filterMap]
    constructor
    · rintro ⟨e, he, hcond⟩
      by_cases hc : e.kind = some "lines" ∧ e.ok = some true
      · rw [if_pos hc] at hcond
        exact ⟨e, he, hc.1, hc.2, hcond⟩
      · rw [if_neg hc] at hcond
        cases hcond
    · rintro ⟨e, he, h1, h2, h3⟩
      refine ⟨e, he, ?_⟩
      rw [if_pos ⟨h1, h2⟩]
      exact h3
  · intro s
    simp only [load_levels_checkpoint, List.mem_filterMap]
    constructor
    · rintro ⟨e, he, hcond⟩
      by_cases hc : e.kind = some "levels" ∧ e.ok = some true
      · rw [if_pos hc] at hcond
        exact ⟨e, he, hc.1, hc.2, hcond⟩
      · rw [if_neg hc] at hcond
        cases hcond
    · rintro ⟨e, he, h1, h2, h3⟩
      refine ⟨e, he, ?_⟩
      rw [if_pos ⟨h1, h2⟩]
      exact h3

/-- Witness for `load_completed_any_success`: a single successful event
puts its key in the completed set. -/
theorem load_completed_any_success_witness :
    ("Fe II", (0 : ℚ), (2 : ℚ), "nm", "vacuum") ∈ load_lines_checkpoint
      [⟨some "lines", some true, some "Fe II", some 0, some 2, some "nm",
        some "vacuum"⟩] :=
  ((load_completed_any_success
      [⟨some "lines", some true, some "Fe II", some 0, some 2, some "nm",
        some "vacuum"⟩]).1
    ("Fe II", (0 : ℚ), (2 : ℚ), "nm", "vacuum")).mpr
    ⟨⟨some "lines", some true, some "Fe II", some 0, some 2, some "nm",
        some "vacuum"⟩,
      by decide, rfl, rfl, rfl⟩

end SpectraDB
